import Mathlib

/-!
Shallow embedding of the algorithm core of the A01794959_A4.2 repository:
`computeStatistics.py` (quicksort, Newton square root, descriptive statistics),
`convertNumbers.py` (two's-complement binary/hexadecimal rendering) and
`wordCount.py` (whitespace tokenizer and case-folded word frequency counter).
Numbers read as Python floats are modelled as exact rationals (ℚ); integers as ℤ.
-/

/-! ## Sorter (`quicksort`, computeStatistics.py lines 19-42)

The Python loop appends each element of `arr` to one of three lists according
to its comparison with the pivot `arr[len(arr) // 2]`; a single pass appending
to `left` / `middle` / `right` in order is exactly the three order-preserving
filters below.  `else` after `x < pivot` and `x == pivot` means `pivot < x`. -/

def quicksort (arr : List ℚ) : List ℚ :=
  if h : arr.length ≤ 1 then arr
  else
    let pivot := arr.get ⟨arr.length / 2, by omega⟩
    let left := arr.filter (fun x => decide (x < pivot))
    let middle := arr.filter (fun x => decide (x = pivot))
    let right := arr.filter (fun x => decide (pivot < x))
    quicksort left ++ middle ++ quicksort right
termination_by arr.length
decreasing_by
  · have hmem : arr.get ⟨arr.length / 2, by omega⟩ ∈ arr := List.get_mem arr _ _
    exact List.length_filter_lt_length_iff_exists.mpr
      ⟨arr.get ⟨arr.length / 2, by omega⟩, hmem, by simp⟩
  · have hmem : arr.get ⟨arr.length / 2, by omega⟩ ∈ arr := List.get_mem arr _ _
    exact List.length_filter_lt_length_iff_exists.mpr
      ⟨arr.get ⟨arr.length / 2, by omega⟩, hmem, by simp⟩

/-! ## SquareRootSolver (`sqrt_newton`, computeStatistics.py lines 45-66)

Error kinds of the core, named after §7 of the specification: the code raises
Python `ValueError` for a negative square-root argument (the spec's
`NegativeDomainError`); list indexing out of range raises `IndexError`;
division by zero raises `ZeroDivisionError`.  `EmptyDatasetError` is the
condition §7 asks for; it appears in the vocabulary so that theorems can state
whether the code ever produces it. -/

inductive CoreError
  | negativeDomainError
  | zeroDivisionError
  | indexError
  | emptyDatasetError
deriving DecidableEq

/-- One Newton refinement `guess = (guess + x / guess) / 2`; Python raises
`ZeroDivisionError` when `guess` is zero, modelled as `none`. -/
def newton_step (x guess : ℚ) : Option ℚ :=
  if guess = 0 then none else some ((guess + x / guess) / 2)

/-- The `for _ in range(n)` refinement loop of `sqrt_newton`. -/
def newton_iter (x : ℚ) : Nat → ℚ → Option ℚ
  | 0, guess => some guess
  | k + 1, guess =>
    match newton_step x guess with
    | none => none
    | some g2 => newton_iter x k g2

/-- `sqrt_newton`: domain check, zero short-circuit, then 20 fixed Newton
refinements starting from `guess = x`. -/
def sqrt_newton (x : ℚ) : Except CoreError ℚ :=
  if x < 0 then Except.error CoreError.negativeDomainError
  else if x = 0 then Except.ok 0
  else
    match newton_iter x 20 x with
    | none => Except.error CoreError.zeroDivisionError
    | some guess => Except.ok guess

/-! ## StatisticsEngine (computeStatistics.py lines 100-199) -/

/-- `calculate_mean`: running sum and element count, `total / count` when the
count is positive and `0` otherwise. -/
def calculate_mean (data : List ℚ) : ℚ :=
  let total := data.foldl (fun acc num => acc + num) 0
  let count := data.length
  if 0 < count then total / (count : ℚ) else 0

/-- Python list indexing `l[i]`: negative indices count from the end; an index
out of range raises `IndexError`, modelled as `none`. -/
def pyGet (l : List ℚ) (i : ℤ) : Option ℚ :=
  if i < 0 then
    if -i ≤ (l.length : ℤ) then l.get? (l.length - (-i).toNat) else none
  else l.get? i.toNat

/-- `calculate_median`: sort, take the middle element (odd length) or the mean
of the two central elements (even length).  On the empty list the even branch
evaluates `sorted_data[-1]`, an `IndexError`. -/
def calculate_median (data : List ℚ) : Option ℚ :=
  let sorted_data := quicksort data
  let n := sorted_data.length
  if n % 2 = 1 then pyGet sorted_data ((n : ℤ) / 2)
  else do
    let a ← pyGet sorted_data ((n : ℤ) / 2 - 1)
    let b ← pyGet sorted_data ((n : ℤ) / 2)
    pure ((a + b) / 2)

/-! A Python `dict` is an insertion-ordered association list: writing to an
existing key updates it in place, a fresh key is appended at the end. -/

def dictGet {α β : Type} [DecidableEq α] (d : List (α × β)) (k : α) (dflt : β) : β :=
  match d with
  | [] => dflt
  | (k2, v) :: rest => if k2 = k then v else dictGet rest k dflt

def dictSet {α β : Type} [DecidableEq α] (d : List (α × β)) (k : α) (v : β) : List (α × β) :=
  match d with
  | [] => [(k, v)]
  | (k2, v2) :: rest => if k2 = k then (k2, v) :: rest else (k2, v2) :: dictSet rest k v

/-- The `frequency` dict of `calculate_mode`:
`frequency[num] = frequency.get(num, 0) + 1` for each element in turn. -/
def buildFrequency (data : List ℚ) : List (ℚ × Nat) :=
  data.foldl (fun freq num => dictSet freq num (dictGet freq num 0 + 1)) []

/-- `calculate_mode` returns a string sentinel, a scalar, or a list. -/
inductive ModeResult
  | noUniqueMode
  | single (v : ℚ)
  | multiple (vs : List ℚ)
deriving DecidableEq

/-- `calculate_mode`: frequency table, maximum frequency
(`max(frequency.values(), default=0)`, here a left fold of `Nat.max` over the
values starting from the default, which agrees with Python's `max` because
counts are non-negative), the keys at maximum frequency in table order, then
the three-way case split on `len(modes)`. -/
def calculate_mode (data : List ℚ) : ModeResult :=
  let frequency := buildFrequency data
  let max_freq := (frequency.map Prod.snd).foldl Nat.max 0
  let modes := (frequency.filter (fun p => decide (p.2 = max_freq))).map Prod.fst
  if modes.length = frequency.length then ModeResult.noUniqueMode
  else if modes.length = 1 then ModeResult.single (modes.getD 0 0)
  else ModeResult.multiple modes

/-- `calculate_variance`: `0` when `n <= 1`, otherwise the accumulated sum of
squared deviations from `mean_value` divided by `n - 1` (an exact integer
subtraction in Python, here `Nat` subtraction cast to ℚ). -/
def calculate_variance (data : List ℚ) (mean_value : ℚ) : ℚ :=
  let n := data.length
  if n ≤ 1 then 0
  else
    let sum_squared_diff :=
      data.foldl (fun acc num => acc + (num - mean_value) * (num - mean_value)) 0
    sum_squared_diff / ((n - 1 : ℕ) : ℚ)

structure Stats where
  count : Nat
  mean : ℚ
  median : ℚ
  mode : ModeResult
  variance : ℚ
  std_deviation : ℚ
deriving DecidableEq

/-- `compute_statistics`: the dict of all six statistics, in the source's
evaluation order; the first raised exception propagates. -/
def compute_statistics (data : List ℚ) : Except CoreError Stats := do
  let count := data.length
  let mean := calculate_mean data
  let median ← match calculate_median data with
    | none => Except.error CoreError.indexError
    | some m => Except.ok m
  let mode := calculate_mode data
  let variance := calculate_variance data mean
  let std_deviation ← sqrt_newton variance
  Except.ok ⟨count, mean, median, mode, variance, std_deviation⟩

/-- Distinct values of a list in order of first occurrence: the iteration
(= insertion) order of the keys of a Python dict built by one pass. -/
def firstOccurAux {α : Type} [DecidableEq α] (seen : List α) : List α → List α
  | [] => []
  | x :: xs =>
    if x ∈ seen then firstOccurAux seen xs else x :: firstOccurAux (seen ++ [x]) xs

def firstOccur {α : Type} [DecidableEq α] (l : List α) : List α := firstOccurAux [] l

/-- The `max_freq` value computed inside `calculate_mode`. -/
def maxFreqOf (data : List ℚ) : Nat :=
  ((buildFrequency data).map Prod.snd).foldl Nat.max 0

/-- The `modes` list computed inside `calculate_mode`. -/
def modesOf (data : List ℚ) : List ℚ :=
  ((buildFrequency data).filter (fun p => decide (p.2 = maxFreqOf data))).map Prod.fst

/-! ## NumberBaseConverter (convertNumbers.py lines 25-92)

`hex_digits = "0123456789ABCDEF"` as a character list. -/

def hex_digits : List Char :=
  ['0', '1', '2', '3', '4', '5', '6', '7', '8', '9', 'A', 'B', 'C', 'D', 'E', 'F']

/-- The `while num > 0` loop of the positive binary branch: the digits of
`num // 2` followed by the digit `str(num % 2)` that the loop prepended
first.  `str` of a bit is `Nat.digitChar`. -/
def binNatAux (n : Nat) : List Char :=
  if _h : n = 0 then []
  else binNatAux (n / 2) ++ [Nat.digitChar (n % 2)]
termination_by n
decreasing_by omega

/-- `convert_to_binary`.  Negative branch: `value = num & mask` with
`mask = 2**10 - 1`; Python's arbitrary-precision bitwise AND with an all-ones
mask is exactly the Euclidean remainder `num mod 2**10` (Lean's `%` on ℤ),
and digit `i` of the output is bit `bits - 1 - i` of `value`.  Non-negative
branch: `"0"` for zero, else the minimal repeated-division representation. -/
def convert_to_binary (num : ℤ) : List Char :=
  if num < 0 then
    let bits := 10
    let value := (num % ((2 : ℤ) ^ bits)).toNat
    (List.range bits).map (fun i => Nat.digitChar ((value >>> (bits - 1 - i)) &&& 1))
  else
    if num = 0 then ['0']
    else binNatAux num.toNat

/-- The `for _ in range(8)` loop of the negative hexadecimal branch: each pass
prepends `hex_digits[value & 0xF]` and divides `value` by 16, so the digits of
`value // 16` (7 more passes) precede the digit of `value & 0xF`. -/
def hexFixedAux : Nat → Nat → List Char
  | 0, _ => []
  | k + 1, value => hexFixedAux k (value / 16) ++ [hex_digits.getD (value &&& 0xF) '0']

/-- The `while num > 0` loop of the positive hexadecimal branch. -/
def hexNatAux (n : Nat) : List Char :=
  if _h : n = 0 then []
  else hexNatAux (n / 16) ++ [hex_digits.getD (n % 16) '0']
termination_by n
decreasing_by omega

/-- `convert_to_hexadecimal`: 8 fixed hex digits of `num mod 2**32` for
negative input, minimal-width conversion otherwise. -/
def convert_to_hexadecimal (num : ℤ) : List Char :=
  if num < 0 then
    let bits := 32
    let value := (num % ((2 : ℤ) ^ bits)).toNat
    hexFixedAux 8 value
  else
    if num = 0 then ['0']
    else hexNatAux num.toNat

/-- Most-significant-first numeric value of a binary digit string. -/
def bitsVal (s : List Char) : Nat :=
  s.foldl (fun acc c => 2 * acc + (if c = '1' then 1 else 0)) 0

def hexCharVal : Char → Nat
  | '1' => 1
  | '2' => 2
  | '3' => 3
  | '4' => 4
  | '5' => 5
  | '6' => 6
  | '7' => 7
  | '8' => 8
  | '9' => 9
  | 'A' => 10
  | 'B' => 11
  | 'C' => 12
  | 'D' => 13
  | 'E' => 14
  | 'F' => 15
  | _ => 0

/-- Most-significant-first numeric value of a hexadecimal digit string. -/
def hexVal (s : List Char) : Nat :=
  s.foldl (fun acc c => 16 * acc + hexCharVal c) 0

/-! ## TextTokenizer (wordCount.py, the per-line loop of `read_words`,
lines 42-51): accumulate non-whitespace characters into `current_word`,
flush it to `words` at whitespace or end of line. -/

def tokenizeAux : List Char → List Char → List (List Char) → List (List Char)
  | [], current_word, words =>
    if current_word = [] then words else words ++ [current_word]
  | c :: cs, current_word, words =>
    if c.isWhitespace then
      if current_word = [] then tokenizeAux cs [] words
      else tokenizeAux cs [] (words ++ [current_word])
    else tokenizeAux cs (current_word ++ [c]) words

def tokenize (line : List Char) : List (List Char) := tokenizeAux line [] []

/-- Joining tokens with single spaces (for the round-trip property). -/
def joinTokens : List (List Char) → List Char
  | [] => []
  | [w] => w
  | w :: ws => w ++ ' ' :: joinTokens ws

/-! ## WordFrequencyCounter (wordCount.py `count_words`, lines 58-84) -/

/-- Per-character fold: `chr(ord(c) + 32)` for an ASCII capital, otherwise the
character itself. -/
def foldChar (c : Char) : Char :=
  if 'A' ≤ c ∧ c ≤ 'Z' then Char.ofNat (c.toNat + 32) else c

/-- The character-by-character accumulation `w += ...` over a word. -/
def foldWord (word : String) : String := String.mk (word.data.map foldChar)

/-- `count_words`: fold each word, then
`freq[w] = freq[w] + 1 if w in freq else 1`, i.e. update the entry from its
current value (default 0). -/
def count_words (words : List String) : List (String × Nat) :=
  words.foldl (fun freq word => dictSet freq (foldWord word)
    (dictGet freq (foldWord word) 0 + 1)) []

/-- Counting an element that fails the filter predicate gives zero. -/
theorem count_filter_eq_zero {p : ℚ → Bool} {l : List ℚ} {a : ℚ} (h : p a = false) :
    List.count a (l.filter p) = 0 := by
  rw [List.count_eq_zero]
  intro hmem
  have h2 := List.of_mem_filter hmem
  rw [h] at h2
  exact Bool.noConfusion h2

/-- The three-way partition of a list by a pivot is a permutation of the list. -/
theorem partition3_perm (l : List ℚ) (p : ℚ) :
    List.Perm
      (l.filter (fun x => decide (x < p)) ++ l.filter (fun x => decide (x = p)) ++
        l.filter (fun x => decide (p < x))) l := by
  rw [List.perm_iff_count]
  intro a
  simp only [List.count_append]
  rcases lt_trichotomy a p with h | h | h
  · rw [List.count_filter (by simp [h]), count_filter_eq_zero (by simp [ne_of_lt h]),
      count_filter_eq_zero (by simp [lt_asymm h])]
    omega
  · rw [count_filter_eq_zero (by simp [h, lt_irrefl]), List.count_filter (by simp [h]),
      count_filter_eq_zero (by simp [h, lt_irrefl])]
    omega
  · rw [count_filter_eq_zero (by simp [lt_asymm h]),
      count_filter_eq_zero (by simp [(ne_of_lt h).symm]), List.count_filter (by simp [h])]
    omega

/-- `quicksort` returns a permutation of its input. -/
theorem quicksort_perm (arr : List ℚ) : List.Perm (quicksort arr) arr := by
  induction arr using quicksort.induct with
  | case1 arr h => rw [quicksort, dif_pos h]
  | case2 arr h pivot left right ihl ihr =>
    rw [quicksort, dif_neg h]
    exact List.Perm.trans
      ((ihl.append (List.Perm.refl (arr.filter (fun x => decide (x = pivot))))).append ihr)
      (partition3_perm arr pivot)

/-- A list all of whose member pairs are related is pairwise-related. -/
theorem pairwise_of_forall_mem {α : Type} {r : α → α → Prop} {l : List α}
    (h : ∀ a ∈ l, ∀ b ∈ l, r a b) : l.Pairwise r := by
  induction l with
  | nil => exact List.Pairwise.nil
  | cons x xs ih =>
    refine List.Pairwise.cons (fun b hb => h x (by simp) b (by simp [hb])) ?_
    exact ih (fun a ha b hb => h a (by simp [ha]) b (by simp [hb]))

/-- Sortedness of a three-part concatenation from part-wise bounds. -/
theorem sorted_append3 {l1 l2 l3 : List ℚ}
    (h1 : l1.Sorted (· ≤ ·)) (h2 : l2.Sorted (· ≤ ·)) (h3 : l3.Sorted (· ≤ ·))
    (h12 : ∀ a ∈ l1, ∀ b ∈ l2, a ≤ b) (h13 : ∀ a ∈ l1, ∀ c ∈ l3, a ≤ c)
    (h23 : ∀ b ∈ l2, ∀ c ∈ l3, b ≤ c) :
    (l1 ++ l2 ++ l3).Sorted (· ≤ ·) := by
  refine List.pairwise_append.mpr ⟨List.pairwise_append.mpr ⟨h1, h2, h12⟩, h3, ?_⟩
  intro a ha c hc
  rcases List.mem_append.mp ha with h | h
  exacts [h13 a h c hc, h23 a h c hc]

/-- `quicksort` output is non-decreasing. -/
theorem quicksort_sorted (arr : List ℚ) : (quicksort arr).Sorted (· ≤ ·) := by
  induction arr using quicksort.induct with
  | case1 arr h =>
    rw [quicksort, dif_pos h]
    rcases arr with _ | ⟨a, _ | ⟨b, t⟩⟩
    · exact List.sorted_nil
    · exact List.sorted_singleton a
    · simp at h
  | case2 arr h pivot left right ihl ihr =>
    rw [quicksort, dif_neg h]
    have hql : ∀ a, a ∈ quicksort left ↔ a ∈ left := fun a => (quicksort_perm left).mem_iff
    have hqr : ∀ a, a ∈ quicksort right ↔ a ∈ right := fun a => (quicksort_perm right).mem_iff
    refine sorted_append3 ihl ?_ ihr ?_ ?_ ?_
    · exact pairwise_of_forall_mem (fun a ha b hb => by
        have ha2 := List.of_mem_filter ha
        have hb2 := List.of_mem_filter hb
        simp only [decide_eq_true_eq] at ha2 hb2
        rw [ha2, hb2])
    · intro a ha b hb
      have ha2 := List.of_mem_filter ((hql a).mp ha)
      have hb2 := List.of_mem_filter hb
      simp only [decide_eq_true_eq] at ha2 hb2
      rw [hb2]; exact le_of_lt ha2
    · intro a ha c hc
      have ha2 := List.of_mem_filter ((hql a).mp ha)
      have hc2 := List.of_mem_filter ((hqr c).mp hc)
      simp only [decide_eq_true_eq] at ha2 hc2
      exact le_of_lt (lt_trans ha2 hc2)
    · intro b hb c hc
      have hb2 := List.of_mem_filter hb
      have hc2 := List.of_mem_filter ((hqr c).mp hc)
      simp only [decide_eq_true_eq] at hb2 hc2
      rw [hb2]; exact le_of_lt hc2

/-- C1: for every finite list of numbers, `quicksort` returns a list that is
non-decreasing and whose multiset of elements equals the input's multiset
(hence in particular for empty, singleton, all-equal, already-sorted and
reverse-sorted inputs). -/
theorem quicksort_correct (arr : List ℚ) :
    (quicksort arr).Sorted (· ≤ ·) ∧
      (↑(quicksort arr) : Multiset ℚ) = (↑arr : Multiset ℚ) :=
  ⟨quicksort_sorted arr, Quot.sound (quicksort_perm arr)⟩

/-- Positivity is preserved through every Newton refinement, so the step never
hits the `none` (division-by-zero) branch. -/
theorem newton_iter_pos (x : ℚ) (hx : 0 < x) :
    ∀ (k : Nat) (g : ℚ), 0 < g → ∃ g2, newton_iter x k g = some g2 ∧ 0 < g2 := by
  intro k
  induction k with
  | zero => exact fun g hg => ⟨g, rfl, hg⟩
  | succ k ih =>
    intro g hg
    have hstep : newton_step x g = some ((g + x / g) / 2) := by
      rw [newton_step, if_neg (ne_of_gt hg)]
    have hpos : 0 < (g + x / g) / 2 := by positivity
    rw [newton_iter, hstep]
    exact ih _ hpos

/-- C6: `sqrt_newton` fails with the negative-domain error exactly when its
argument is strictly negative, and returns 0 exactly when the argument is 0
(the zero short-circuit precedes the Newton iteration, and for positive input
the iteration keeps the guess strictly positive). -/
theorem sqrt_newton_domain (x : ℚ) :
    (sqrt_newton x = Except.error CoreError.negativeDomainError ↔ x < 0) ∧
    (sqrt_newton x = Except.ok 0 ↔ x = 0) := by
  rcases lt_trichotomy x 0 with h | h | h
  · rw [sqrt_newton, if_pos h]
    exact ⟨⟨fun _ => h, fun _ => rfl⟩,
      ⟨fun h2 => Except.noConfusion h2, fun h2 => absurd (h2 ▸ h) (lt_irrefl 0)⟩⟩
  · subst h
    rw [sqrt_newton, if_neg (lt_irrefl 0), if_pos rfl]
    exact ⟨⟨fun h2 => Except.noConfusion h2, fun h2 => absurd h2 (lt_irrefl 0)⟩,
      ⟨fun _ => rfl, fun _ => rfl⟩⟩
  · obtain ⟨g, hg, hgpos⟩ := newton_iter_pos x h 20 x h
    rw [sqrt_newton, if_neg (not_lt.mpr (le_of_lt h)), if_neg (ne_of_gt h), hg]
    refine ⟨⟨fun h2 => Except.noConfusion h2, fun h2 => absurd h2 (not_lt.mpr (le_of_lt h))⟩,
      ⟨fun h2 => absurd (Except.ok.inj h2) (ne_of_gt hgpos), fun h2 => absurd h2 (ne_of_gt h)⟩⟩

/-- C10: for positive `x` the iteration variable stays strictly positive
through every refinement (each step averages two positive quantities), so the
division `x / guess` never divides by zero; together with the `x == 0`
short-circuit, `sqrt_newton` raises no division-by-zero error on any
non-negative input. -/
theorem sqrt_newton_no_division_by_zero (x : ℚ) (k : Nat) (hx : 0 < x) :
    (∃ g, newton_iter x k x = some g ∧ 0 < g) ∧
    sqrt_newton x ≠ Except.error CoreError.zeroDivisionError ∧
    sqrt_newton 0 ≠ Except.error CoreError.zeroDivisionError := by
  refine ⟨newton_iter_pos x hx k x hx, ?_, ?_⟩
  · obtain ⟨g, hg, _⟩ := newton_iter_pos x hx 20 x hx
    rw [sqrt_newton, if_neg (not_lt.mpr (le_of_lt hx)), if_neg (ne_of_gt hx), hg]
    exact fun h2 => Except.noConfusion h2
  · rw [sqrt_newton, if_neg (lt_irrefl 0), if_pos rfl]
    exact fun h2 => Except.noConfusion h2

/-- Witness for C10 at `x = 2`, `k = 20`. -/
theorem sqrt_newton_no_division_by_zero_witness :
    0 < (2 : ℚ) ∧
      ((∃ g, newton_iter 2 20 2 = some g ∧ 0 < g) ∧
        sqrt_newton 2 ≠ Except.error CoreError.zeroDivisionError ∧
        sqrt_newton 0 ≠ Except.error CoreError.zeroDivisionError) :=
  ⟨by norm_num, sqrt_newton_no_division_by_zero 2 20 (by norm_num)⟩

/-- Folding addition of `f` over a list is the sum of the mapped list. -/
theorem foldl_add_map (data : List ℚ) (f : ℚ → ℚ) (a : ℚ) :
    data.foldl (fun acc num => acc + f num) a = a + (data.map f).sum := by
  induction data generalizing a with
  | nil => simp
  | cons x xs ih => simp [ih, add_assoc]

/-- C7: `calculate_variance` is the sample variance with divisor `n - 1` (sum
of squared deviations from the supplied mean over `n - 1`) whenever the
dataset has at least two elements, and is exactly 0 whenever `n ≤ 1`. -/
theorem calculate_variance_spec (data : List ℚ) (mean_value : ℚ) :
    calculate_variance data mean_value =
      if data.length ≤ 1 then 0
      else (data.map (fun num => (num - mean_value) * (num - mean_value))).sum /
          ((data.length : ℚ) - 1) := by
  rw [calculate_variance]
  by_cases h : data.length ≤ 1
  · simp [h]
  · rw [if_neg h, if_neg h, foldl_add_map, zero_add]
    rw [Nat.cast_sub (by omega), Nat.cast_one]

/-- `quicksort` of the empty list is the empty list. -/
theorem quicksort_nil : quicksort ([] : List ℚ) = [] := by
  rw [quicksort]
  rfl

/-- `calculate_median` of the empty list raises `IndexError`: the even branch
evaluates `sorted_data[-1]` on an empty list. -/
theorem calculate_median_nil : calculate_median ([] : List ℚ) = none := by
  simp [calculate_median, quicksort_nil, pyGet]

/-- `compute_statistics` of the empty list propagates the median's
`IndexError`. -/
theorem compute_statistics_nil :
    compute_statistics ([] : List ℚ) = Except.error CoreError.indexError := by
  simp only [compute_statistics, calculate_median_nil]
  rfl

/-- C4 counterexample: on the empty dataset the code does not surface an
explicit empty-dataset error. -/
theorem empty_dataset_counterexample :
    compute_statistics ([] : List ℚ) ≠ Except.error CoreError.emptyDatasetError := by
  rw [compute_statistics_nil]
  exact fun h => CoreError.noConfusion (Except.error.inj h)

/-- C4 amended: requesting statistics on an empty dataset fails with the
`IndexError` arising inside the median computation — so no degenerate
zero-valued statistics record is returned — but the surfaced condition is not
an explicit `EmptyDatasetError`; `calculate_mean` alone would report 0. -/
theorem empty_dataset_behavior :
    compute_statistics ([] : List ℚ) = Except.error CoreError.indexError ∧
      (∀ s : Stats, compute_statistics ([] : List ℚ) ≠ Except.ok s) ∧
      calculate_mean ([] : List ℚ) = 0 := by
  refine ⟨compute_statistics_nil, ?_, rfl⟩
  intro s h
  rw [compute_statistics_nil] at h
  exact Except.noConfusion h

/-! ### Dictionary lemmas for the frequency table -/

theorem dictGet_dictSet_same {α β : Type} [DecidableEq α]
    (d : List (α × β)) (k : α) (v : β) (dflt : β) :
    dictGet (dictSet d k v) k dflt = v := by
  induction d with
  | nil => simp [dictGet, dictSet]
  | cons p rest ih =>
    obtain ⟨k2, v2⟩ := p
    by_cases h : k2 = k
    · simp [dictGet, dictSet, h]
    · simp [dictGet, dictSet, h, ih]

theorem dictGet_dictSet_ne {α β : Type} [DecidableEq α]
    (d : List (α × β)) (k k1 : α) (v : β) (dflt : β) (hne : k1 ≠ k) :
    dictGet (dictSet d k v) k1 dflt = dictGet d k1 dflt := by
  induction d with
  | nil => simp [dictGet, dictSet, Ne.symm hne]
  | cons p rest ih =>
    obtain ⟨k2, v2⟩ := p
    by_cases h : k2 = k
    · subst h
      simp [dictGet, dictSet, Ne.symm hne]
    · simp only [dictSet, if_neg h, dictGet]
      by_cases h2 : k2 = k1
      · simp [h2]
      · simp [h2, ih]

theorem keys_dictSet {α β : Type} [DecidableEq α]
    (d : List (α × β)) (k : α) (v : β) :
    (dictSet d k v).map Prod.fst =
      if k ∈ d.map Prod.fst then d.map Prod.fst else d.map Prod.fst ++ [k] := by
  induction d with
  | nil => simp [dictSet]
  | cons p rest ih =>
    obtain ⟨k2, v2⟩ := p
    by_cases h : k2 = k
    · subst h
      simp [dictSet]
    · simp only [dictSet, if_neg h, List.map_cons, ih]
      by_cases h2 : k ∈ rest.map Prod.fst
      · simp [h2, Ne.symm h]
      · simp [h2, Ne.symm h]

/-- Folding the `frequency.get(num, 0) + 1` update over a list makes the
stored value of each key grow by the key's occurrence count. -/
theorem dictGet_countFold {α : Type} [DecidableEq α] (xs : List α)
    (d : List (α × Nat)) (k : α) :
    dictGet (xs.foldl (fun freq x => dictSet freq x (dictGet freq x 0 + 1)) d) k 0 =
      dictGet d k 0 + xs.count k := by
  induction xs generalizing d with
  | nil => simp
  | cons x xs ih =>
    rw [List.foldl_cons, ih, List.count_cons]
    by_cases h : k = x
    · subst h
      rw [dictGet_dictSet_same]
      simp only [beq_self_eq_true, if_true]
      omega
    · rw [dictGet_dictSet_ne _ _ _ _ _ h]
      simp [Ne.symm h]

/-- The key list produced by the counting fold extends the accumulator's keys
with the first occurrences of still-unseen values, in encounter order. -/
theorem keys_countFold {α : Type} [DecidableEq α] (xs : List α)
    (d : List (α × Nat)) :
    (xs.foldl (fun freq x => dictSet freq x (dictGet freq x 0 + 1)) d).map Prod.fst =
      d.map Prod.fst ++ firstOccurAux (d.map Prod.fst) xs := by
  induction xs generalizing d with
  | nil => simp [firstOccurAux]
  | cons x xs ih =>
    rw [List.foldl_cons, ih, keys_dictSet, firstOccurAux]
    by_cases h : x ∈ d.map Prod.fst
    · simp [h]
    · simp [h]

theorem mem_firstOccurAux {α : Type} [DecidableEq α] (l : List α) :
    ∀ (seen : List α) (a : α), a ∈ firstOccurAux seen l ↔ (a ∈ l ∧ a ∉ seen) := by
  induction l with
  | nil => intro seen a; simp [firstOccurAux]
  | cons x xs ih =>
    intro seen a
    rw [firstOccurAux]
    by_cases h : x ∈ seen
    · rw [if_pos h, ih]
      constructor
      · exact fun ⟨h1, h2⟩ => ⟨List.mem_cons_of_mem x h1, h2⟩
      · rintro ⟨h1, h2⟩
        rcases List.mem_cons.mp h1 with rfl | h1
        · exact absurd h h2
        · exact ⟨h1, h2⟩
    · rw [if_neg h]
      constructor
      · intro h1
        rcases List.mem_cons.mp h1 with rfl | h1
        · exact ⟨List.mem_cons_self a xs, h⟩
        · obtain ⟨h2, h3⟩ := (ih _ _).mp h1
          refine ⟨List.mem_cons_of_mem x h2, fun h4 => h3 ?_⟩
          exact List.mem_append_left _ h4
      · rintro ⟨h1, h2⟩
        rcases List.mem_cons.mp h1 with rfl | h1
        · exact List.mem_cons_self a _
        · by_cases h3 : a = x
          · subst h3; exact List.mem_cons_self a _
          · refine List.mem_cons_of_mem x ((ih _ _).mpr ⟨h1, fun h4 => ?_⟩)
            rcases List.mem_append.mp h4 with h5 | h5
            · exact h2 h5
            · exact h3 (List.mem_singleton.mp h5)

theorem nodup_firstOccurAux {α : Type} [DecidableEq α] (l : List α) :
    ∀ seen : List α, (firstOccurAux seen l).Nodup := by
  induction l with
  | nil => intro seen; simp [firstOccurAux]
  | cons x xs ih =>
    intro seen
    rw [firstOccurAux]
    by_cases h : x ∈ seen
    · rw [if_pos h]; exact ih seen
    · rw [if_neg h]
      refine List.Nodup.cons (fun hmem => ?_) (ih _)
      obtain ⟨_, h2⟩ := (mem_firstOccurAux xs _ x).mp hmem
      exact h2 (List.mem_append_right _ (List.mem_singleton_self x))

/-- With nodup keys, a stored pair is recovered by `dictGet`. -/
theorem dictGet_of_mem {α β : Type} [DecidableEq α]
    (d : List (α × β)) (k : α) (v : β) (dflt : β)
    (hmem : (k, v) ∈ d) (hnd : (d.map Prod.fst).Nodup) :
    dictGet d k dflt = v := by
  induction d with
  | nil => simp at hmem
  | cons p rest ih =>
    obtain ⟨k2, v2⟩ := p
    rw [List.map_cons, List.nodup_cons] at hnd
    rcases List.mem_cons.mp hmem with heq | hmem2
    · obtain ⟨h1, h2⟩ := Prod.mk.inj heq
      subst h1
      subst h2
      simp [dictGet]
    · have hk2 : k2 ≠ k := by
        intro h
        subst h
        exact hnd.1 (List.mem_map.mpr ⟨(k2, v), hmem2, rfl⟩)
      rw [dictGet, if_neg hk2]
      exact ih hmem2 hnd.2

/-- Every key of a dict stores its `dictGet` value. -/
theorem mem_of_key {α β : Type} [DecidableEq α]
    (d : List (α × β)) (k : α) (dflt : β)
    (hmem : k ∈ d.map Prod.fst) : (k, dictGet d k dflt) ∈ d := by
  induction d with
  | nil => simp at hmem
  | cons p rest ih =>
    obtain ⟨k2, v2⟩ := p
    by_cases h : k2 = k
    · subst h
      rw [dictGet, if_pos rfl]
      exact List.mem_cons_self _ _
    · rw [dictGet, if_neg h]
      rw [List.map_cons] at hmem
      rcases List.mem_cons.mp hmem with h1 | h1
      · exact absurd h1.symm h
      · exact List.mem_cons_of_mem _ (ih h1)

/-! ### Maximum-fold lemmas (`max(values, default=0)`) -/

theorem le_foldl_max (l : List Nat) : ∀ a : Nat, a ≤ l.foldl Nat.max a := by
  induction l with
  | nil => intro a; exact le_refl a
  | cons y l ih =>
    intro a
    exact le_trans (Nat.le_max_left a y) (ih (Nat.max a y))

theorem mem_le_foldl_max (l : List Nat) :
    ∀ (a x : Nat), x ∈ l → x ≤ l.foldl Nat.max a := by
  induction l with
  | nil => intro a x hx; simp at hx
  | cons y l ih =>
    intro a x hx
    rcases List.mem_cons.mp hx with rfl | hx
    · exact le_trans (Nat.le_max_right a x) (le_foldl_max l (Nat.max a x))
    · exact ih (Nat.max a y) x hx

theorem foldl_max_mem (l : List Nat) :
    ∀ a : Nat, l.foldl Nat.max a = a ∨ l.foldl Nat.max a ∈ l := by
  induction l with
  | nil => intro a; exact Or.inl rfl
  | cons y l ih =>
    intro a
    rw [List.foldl_cons]
    rcases ih (Nat.max a y) with h | h
    · rcases Nat.le_total a y with h2 | h2
      · have h3 : Nat.max a y = y := Nat.max_eq_right h2
        rw [h, h3]
        exact Or.inr (List.mem_cons_self y l)
      · have h3 : Nat.max a y = a := Nat.max_eq_left h2
        rw [h, h3]
        exact Or.inl rfl
    · exact Or.inr (List.mem_cons_of_mem y h)

/-! ### Characterization of the frequency table of `calculate_mode` -/

/-- The stored count of each key of the frequency table is its occurrence
count in the data. -/
theorem buildFrequency_get (data : List ℚ) (k : ℚ) :
    dictGet (buildFrequency data) k 0 = data.count k := by
  rw [buildFrequency, dictGet_countFold]
  simp [dictGet]

/-- The keys of the frequency table are the distinct data values in first
occurrence order. -/
theorem buildFrequency_keys (data : List ℚ) :
    (buildFrequency data).map Prod.fst = firstOccur data := by
  rw [buildFrequency, keys_countFold, firstOccur]
  simp

theorem mem_firstOccur {α : Type} [DecidableEq α] (l : List α) (a : α) :
    a ∈ firstOccur l ↔ a ∈ l := by
  rw [firstOccur, mem_firstOccurAux]
  simp

theorem buildFrequency_keys_nodup (data : List ℚ) :
    ((buildFrequency data).map Prod.fst).Nodup := by
  rw [buildFrequency_keys, firstOccur]
  exact nodup_firstOccurAux data []

/-- Every entry of the frequency table pairs a data value with its count. -/
theorem buildFrequency_entry (data : List ℚ) (p : ℚ × Nat)
    (hmem : p ∈ buildFrequency data) : p.1 ∈ data ∧ p.2 = data.count p.1 := by
  obtain ⟨k, v⟩ := p
  constructor
  · have : k ∈ (buildFrequency data).map Prod.fst :=
      List.mem_map.mpr ⟨(k, v), hmem, rfl⟩
    rw [buildFrequency_keys, mem_firstOccur] at this
    exact this
  · have := dictGet_of_mem (buildFrequency data) k v 0 hmem (buildFrequency_keys_nodup data)
    rw [buildFrequency_get] at this
    exact this.symm

/-- Every data value has its entry in the frequency table. -/
theorem buildFrequency_mem (data : List ℚ) (k : ℚ) (hk : k ∈ data) :
    (k, data.count k) ∈ buildFrequency data := by
  have hkeys : k ∈ (buildFrequency data).map Prod.fst := by
    rw [buildFrequency_keys, mem_firstOccur]
    exact hk
  have := mem_of_key (buildFrequency data) k 0 hkeys
  rw [buildFrequency_get] at this
  exact this

/-! ### The mode computation -/

/-- `calculate_mode` expressed through its internal quantities. -/
theorem calculate_mode_eq (data : List ℚ) :
    calculate_mode data =
      if (modesOf data).length = (buildFrequency data).length then ModeResult.noUniqueMode
      else if (modesOf data).length = 1 then ModeResult.single ((modesOf data).getD 0 0)
      else ModeResult.multiple (modesOf data) := rfl

/-- Every occurrence count in the data is bounded by `max_freq`. -/
theorem maxFreq_is_ub (data : List ℚ) :
    ∀ w ∈ data, data.count w ≤ maxFreqOf data := by
  intro w hw
  have hentry := buildFrequency_mem data w hw
  exact mem_le_foldl_max _ 0 _ (List.mem_map.mpr ⟨(w, data.count w), hentry, rfl⟩)

/-- On a non-empty dataset `max_freq` is attained by some value. -/
theorem maxFreq_attained (data : List ℚ) (hne : data ≠ []) :
    ∃ w ∈ data, data.count w = maxFreqOf data := by
  rcases foldl_max_mem ((buildFrequency data).map Prod.snd) 0 with h | h
  · obtain ⟨x, xs, rfl⟩ := List.exists_cons_of_ne_nil hne
    have hx : 0 < (x :: xs).count x := List.count_pos_iff.mpr (List.mem_cons_self x xs)
    have hb := maxFreq_is_ub (x :: xs) x (List.mem_cons_self x xs)
    have h0 : maxFreqOf (x :: xs) = 0 := h
    omega
  · obtain ⟨p, hp, hp2⟩ := List.mem_map.mp h
    obtain ⟨hp3, hp4⟩ := buildFrequency_entry data p hp
    refine ⟨p.1, hp3, ?_⟩
    rw [← hp4]
    exact hp2

/-- Filtering a dict on values and projecting to keys equals filtering the
keys through the value function. -/
theorem filter_map_fst {α : Type} (d : List (α × Nat)) (g : α → Nat) (q : Nat → Bool)
    (hd : ∀ p ∈ d, p.2 = g p.1) :
    (d.filter (fun p => q p.2)).map Prod.fst =
      (d.map Prod.fst).filter (fun k => q (g k)) := by
  induction d with
  | nil => rfl
  | cons p rest ih =>
    obtain ⟨k, v⟩ := p
    have hv : v = g k := hd (k, v) (List.mem_cons_self _ _)
    have hrest : ∀ p ∈ rest, p.2 = g p.1 := fun p hp => hd p (List.mem_cons_of_mem _ hp)
    simp only [List.filter_cons, List.map_cons]
    rw [← hv]
    by_cases hq : q v
    · simp [hq, ih hrest]
    · simp [hq, ih hrest]

/-- The `modes` list is the first-occurrence list filtered to the values whose
count equals `max_freq`. -/
theorem modesOf_eq_filter (data : List ℚ) :
    modesOf data =
      (firstOccur data).filter (fun k => decide (data.count k = maxFreqOf data)) := by
  rw [modesOf,
    filter_map_fst (buildFrequency data) (fun k => data.count k)
      (fun c => decide (c = maxFreqOf data))
      (fun p hp => (buildFrequency_entry data p hp).2),
    buildFrequency_keys]

theorem mem_modesOf (data : List ℚ) (v : ℚ) :
    v ∈ modesOf data ↔ (v ∈ data ∧ data.count v = maxFreqOf data) := by
  rw [modesOf_eq_filter, List.mem_filter, mem_firstOccur]
  simp

theorem modesOf_nodup (data : List ℚ) : (modesOf data).Nodup := by
  rw [modesOf_eq_filter, firstOccur]
  exact List.Nodup.filter _ (nodup_firstOccurAux data [])

/-- The sentinel branch is taken exactly when every table entry is at
`max_freq`. -/
theorem modesOf_length_iff (data : List ℚ) :
    (modesOf data).length = (buildFrequency data).length ↔
      ∀ p ∈ buildFrequency data, p.2 = maxFreqOf data := by
  rw [modesOf, List.length_map]
  constructor
  · intro h p hp
    have heq := List.Sublist.eq_of_length (List.filter_sublist (buildFrequency data)) h
    have := List.filter_eq_self.mp heq p hp
    exact of_decide_eq_true this
  · intro h
    rw [List.filter_eq_self.mpr (fun p hp => decide_eq_true (h p hp))]

/-- All table entries at `max_freq` is the same as all values having equal
counts (on a non-empty dataset). -/
theorem allEntries_iff_allCounts (data : List ℚ) (hne : data ≠ []) :
    (∀ p ∈ buildFrequency data, p.2 = maxFreqOf data) ↔
      ∀ a ∈ data, ∀ b ∈ data, data.count a = data.count b := by
  constructor
  · intro h a ha b hb
    have h1 := h (a, data.count a) (buildFrequency_mem data a ha)
    have h2 := h (b, data.count b) (buildFrequency_mem data b hb)
    exact h1.trans h2.symm
  · intro h p hp
    obtain ⟨hp1, hp2⟩ := buildFrequency_entry data p hp
    obtain ⟨w0, hw0, hw0max⟩ := maxFreq_attained data hne
    rw [hp2, h p.1 hp1 w0 hw0, hw0max]

/-- On a non-empty dataset, a value's count equals `max_freq` exactly when it
is maximal among all counts. -/
theorem count_eq_maxFreq_iff (data : List ℚ) (hne : data ≠ []) (v : ℚ) :
    data.count v = maxFreqOf data ↔
      (∀ w ∈ data, data.count w ≤ data.count v) := by
  obtain ⟨w0, hw0, hw0max⟩ := maxFreq_attained data hne
  constructor
  · intro h w hw
    exact le_of_le_of_eq (maxFreq_is_ub data w hw) h.symm
  · intro h
    have h1 : data.count w0 ≤ data.count v := h w0 hw0
    rcases List.exists_cons_of_ne_nil hne with ⟨x, xs, rfl⟩
    have h2 : (x :: xs).count v ≤ maxFreqOf (x :: xs) := by
      by_cases hv : v ∈ x :: xs
      · exact maxFreq_is_ub (x :: xs) v hv
      · rw [List.count_eq_zero.mpr hv]
        omega
    omega

/-- A nodup list whose members all equal a member is that singleton. -/
theorem eq_singleton_of_nodup {α : Type} {l : List α} {v : α}
    (hv : v ∈ l) (hall : ∀ u ∈ l, u = v) (hnd : l.Nodup) : l = [v] := by
  cases l with
  | nil => simp at hv
  | cons x xs =>
    have hx : x = v := hall x (List.mem_cons_self _ _)
    subst hx
    rcases xs with _ | ⟨y, ys⟩
    · rfl
    · have hy : y = x := hall y (by simp)
      subst hy
      rw [List.nodup_cons] at hnd
      exact absurd (List.mem_cons_self y ys) hnd.1

/-- C5: on a non-empty dataset `calculate_mode` returns the "no unique mode"
sentinel exactly when every value occurs with identical frequency (including
all-distinct datasets); it returns a scalar exactly when, frequencies not all
being equal, one value uniquely attains the maximum frequency; and a returned
tie list contains exactly the values attaining the maximum frequency. -/
theorem calculate_mode_spec (data : List ℚ) (hne : data ≠ []) :
    (calculate_mode data = ModeResult.noUniqueMode ↔
        ∀ a ∈ data, ∀ b ∈ data, data.count a = data.count b) ∧
      (∀ v : ℚ, calculate_mode data = ModeResult.single v ↔
        ((¬ ∀ a ∈ data, ∀ b ∈ data, data.count a = data.count b) ∧ v ∈ data ∧
          (∀ w ∈ data, data.count w ≤ data.count v) ∧
          (∀ w ∈ data, data.count w = data.count v → w = v))) ∧
      (∀ l : List ℚ, calculate_mode data = ModeResult.multiple l →
        ∀ v : ℚ, v ∈ l ↔ (v ∈ data ∧ ∀ w ∈ data, data.count w ≤ data.count v)) := by
  have hEq : ∀ v : ℚ, (v ∈ data ∧ ∀ w ∈ data, data.count w ≤ data.count v) ↔
      v ∈ modesOf data := by
    intro v
    rw [mem_modesOf, and_congr_right_iff]
    intro hv
    exact (count_eq_maxFreq_iff data hne v).symm
  rw [calculate_mode_eq]
  by_cases hS : (modesOf data).length = (buildFrequency data).length
  · rw [if_pos hS]
    have hP := (allEntries_iff_allCounts data hne).mp ((modesOf_length_iff data).mp hS)
    refine ⟨iff_of_true rfl hP, fun v => ?_, fun l h => ModeResult.noConfusion h⟩
    exact iff_of_false (fun h => ModeResult.noConfusion h) (fun h => h.1 hP)
  · rw [if_neg hS]
    have hnP : ¬ ∀ a ∈ data, ∀ b ∈ data, data.count a = data.count b :=
      fun hP => hS ((modesOf_length_iff data).mpr ((allEntries_iff_allCounts data hne).mpr hP))
    by_cases h1 : (modesOf data).length = 1
    · rw [if_pos h1]
      obtain ⟨m, hm⟩ := List.length_eq_one.mp h1
      have hget : (modesOf data).getD 0 0 = m := by rw [hm]; rfl
      have hmmem : m ∈ modesOf data := hm ▸ List.mem_cons_self m []
      refine ⟨iff_of_false (fun h => ModeResult.noConfusion h) (fun hP => hnP hP),
        fun v => ?_, fun l h => ModeResult.noConfusion h⟩
      rw [hget]
      constructor
      · intro h
        have hvm : v = m := (ModeResult.single.inj h).symm
        subst hvm
        obtain ⟨hvd, hvmax⟩ := (mem_modesOf data v).mp hmmem
        refine ⟨hnP, hvd, (count_eq_maxFreq_iff data hne v).mp hvmax, fun w hw hwc => ?_⟩
        have hwmem : w ∈ modesOf data := (mem_modesOf data w).mpr ⟨hw, hwc.trans hvmax⟩
        rw [hm] at hwmem
        exact List.mem_singleton.mp hwmem
      · rintro ⟨-, hvd, hvub, -⟩
        have hvmem : v ∈ modesOf data := (hEq v).mp ⟨hvd, hvub⟩
        rw [hm] at hvmem
        rw [List.mem_singleton.mp hvmem]
    · rw [if_neg h1]
      refine ⟨iff_of_false (fun h => ModeResult.noConfusion h) (fun hP => hnP hP),
        fun v => iff_of_false (fun h => ModeResult.noConfusion h) ?_, fun l h => ?_⟩
      · rintro ⟨-, hvd, hvub, huniq⟩
        have hvmem : v ∈ modesOf data := (hEq v).mp ⟨hvd, hvub⟩
        have hall : ∀ u ∈ modesOf data, u = v := by
          intro u hu
          obtain ⟨hud, humax⟩ := (mem_modesOf data u).mp hu
          obtain ⟨hvd2, hvmax⟩ := (mem_modesOf data v).mp hvmem
          exact huniq u hud (humax.trans hvmax.symm)
        have := eq_singleton_of_nodup hvmem hall (modesOf_nodup data)
        rw [this] at h1
        exact h1 rfl
      · have hl : l = modesOf data := (ModeResult.multiple.inj h).symm
        subst hl
        exact fun v => (hEq v).symm

/-- Witness for C5 at the dataset `[1, 1, 2]`. -/
theorem calculate_mode_spec_witness :
    ([1, 1, 2] : List ℚ) ≠ [] ∧
      ((calculate_mode [1, 1, 2] = ModeResult.noUniqueMode ↔
          ∀ a ∈ ([1, 1, 2] : List ℚ), ∀ b ∈ ([1, 1, 2] : List ℚ),
            ([1, 1, 2] : List ℚ).count a = ([1, 1, 2] : List ℚ).count b) ∧
        (∀ v : ℚ, calculate_mode [1, 1, 2] = ModeResult.single v ↔
          ((¬ ∀ a ∈ ([1, 1, 2] : List ℚ), ∀ b ∈ ([1, 1, 2] : List ℚ),
              ([1, 1, 2] : List ℚ).count a = ([1, 1, 2] : List ℚ).count b) ∧
            v ∈ ([1, 1, 2] : List ℚ) ∧
            (∀ w ∈ ([1, 1, 2] : List ℚ),
              ([1, 1, 2] : List ℚ).count w ≤ ([1, 1, 2] : List ℚ).count v) ∧
            (∀ w ∈ ([1, 1, 2] : List ℚ),
              ([1, 1, 2] : List ℚ).count w = ([1, 1, 2] : List ℚ).count v → w = v))) ∧
        (∀ l : List ℚ, calculate_mode [1, 1, 2] = ModeResult.multiple l →
          ∀ v : ℚ, v ∈ l ↔ (v ∈ ([1, 1, 2] : List ℚ) ∧
            ∀ w ∈ ([1, 1, 2] : List ℚ),
              ([1, 1, 2] : List ℚ).count w ≤ ([1, 1, 2] : List ℚ).count v))) :=
  ⟨by decide, calculate_mode_spec [1, 1, 2] (by decide)⟩

/-- C3 counterexample: on `[2, 2, 1, 1, 3]` the tied values come back as
`[2, 1]` — the frequency-mapping iteration (first-occurrence) order — which is
not ascending. -/
theorem mode_tie_order_counterexample :
    calculate_mode [2, 2, 1, 1, 3] = ModeResult.multiple [2, 1] ∧
      ¬ ([2, 1] : List ℚ).Sorted (· ≤ ·) := by
  constructor
  · decide
  · decide

/-- C3 amended: a returned tie list is the distinct data values in
first-occurrence (frequency-mapping insertion/iteration) order restricted to
those attaining the maximum frequency — a deterministic order for a given
input, but not ascending order. -/
theorem mode_tie_insertion_order (data l : List ℚ)
    (h : calculate_mode data = ModeResult.multiple l) :
    l = (firstOccur data).filter
      (fun v => decide (∀ w ∈ data, data.count w ≤ data.count v)) := by
  have hne : data ≠ [] := by
    rintro rfl
    rw [show calculate_mode ([] : List ℚ) = ModeResult.noUniqueMode from rfl] at h
    exact ModeResult.noConfusion h
  rw [calculate_mode_eq] at h
  by_cases hS : (modesOf data).length = (buildFrequency data).length
  · rw [if_pos hS] at h
    exact ModeResult.noConfusion h
  · rw [if_neg hS] at h
    by_cases h1 : (modesOf data).length = 1
    · rw [if_pos h1] at h
      exact ModeResult.noConfusion h
    · rw [if_neg h1] at h
      have hl : l = modesOf data := (ModeResult.multiple.inj h).symm
      rw [hl, modesOf_eq_filter]
      exact List.filter_congr
        (fun v hv => decide_eq_decide.mpr (count_eq_maxFreq_iff data hne v))

/-- Witness for the amended C3 at `[2, 2, 1, 1, 3]`. -/
theorem mode_tie_insertion_order_witness :
    calculate_mode [2, 2, 1, 1, 3] = ModeResult.multiple [2, 1] ∧
      ([2, 1] : List ℚ) = (firstOccur [2, 2, 1, 1, 3]).filter
        (fun v => decide (∀ w ∈ ([2, 2, 1, 1, 3] : List ℚ),
          ([2, 2, 1, 1, 3] : List ℚ).count w ≤ ([2, 2, 1, 1, 3] : List ℚ).count v)) :=
  ⟨by decide, mode_tie_insertion_order [2, 2, 1, 1, 3] [2, 1] (by decide)⟩

/-! ### Base conversion -/

/-- Value of the repeated-division binary representation, with accumulator. -/
theorem binNatAux_val (n : Nat) :
    ∀ a : Nat,
      (binNatAux n).foldl (fun acc c => 2 * acc + (if c = '1' then 1 else 0)) a =
        a * 2 ^ (binNatAux n).length + n := by
  induction n using Nat.strong_induction_on with
  | _ n ih =>
    intro a
    by_cases h : n = 0
    · subst h
      rw [binNatAux]
      simp
    · rw [binNatAux, dif_neg h]
      rw [List.foldl_append, List.length_append]
      rw [ih (n / 2) (by omega) a]
      simp only [List.foldl_cons, List.foldl_nil, List.length_cons, List.length_nil]
      have hd : (if Nat.digitChar (n % 2) = '1' then 1 else 0) = n % 2 := by
        rcases Nat.mod_two_eq_zero_or_one n with h2 | h2 <;> rw [h2] <;> rfl
      rw [hd]
      have hnm : 2 * (n / 2) + n % 2 = n := by omega
      calc 2 * (a * 2 ^ (binNatAux (n / 2)).length + n / 2) + n % 2
          = a * (2 ^ (binNatAux (n / 2)).length * 2) + (2 * (n / 2) + n % 2) := by ring
        _ = a * 2 ^ ((binNatAux (n / 2)).length + (0 + 1)) + n := by
            rw [hnm, pow_succ]

/-- The leading digit of a positive number's binary representation is 1. -/
theorem binNatAux_head (n : Nat) (hn : n ≠ 0) : ∃ t, binNatAux n = '1' :: t := by
  induction n using Nat.strong_induction_on with
  | _ n ih =>
    rw [binNatAux, dif_neg hn]
    by_cases h2 : n / 2 = 0
    · have h0 : binNatAux 0 = [] := by
        rw [binNatAux]
        rfl
      have h1 : n % 2 = 1 := by omega
      rw [h2, h0, h1]
      exact ⟨[], rfl⟩
    · obtain ⟨t, ht⟩ := ih (n / 2) (by omega) h2
      rw [ht]
      exact ⟨t ++ [Nat.digitChar (n % 2)], rfl⟩

/-- Every digit emitted by the positive binary branch is a binary digit. -/
theorem binNatAux_digits (n : Nat) : ∀ c ∈ binNatAux n, c = '0' ∨ c = '1' := by
  induction n using Nat.strong_induction_on with
  | _ n ih =>
    intro c hc
    by_cases h : n = 0
    · subst h
      rw [binNatAux] at hc
      simp at hc
    · rw [binNatAux, dif_neg h] at hc
      rcases List.mem_append.mp hc with h1 | h1
      · exact ih (n / 2) (by omega) c h1
      · rcases Nat.mod_two_eq_zero_or_one n with h2 | h2 <;> rw [h2] at h1
        · exact Or.inl (List.mem_singleton.mp h1)
        · exact Or.inr (List.mem_singleton.mp h1)

/-- Value of the fixed-width most-significant-first bit extraction: it renders
`v mod 2 ^ k`. -/
theorem binFixed_val (k : Nat) :
    ∀ (v a : Nat),
      ((List.range k).map (fun i => Nat.digitChar ((v >>> (k - 1 - i)) &&& 1))).foldl
          (fun acc c => 2 * acc + (if c = '1' then 1 else 0)) a =
        a * 2 ^ k + v % 2 ^ k := by
  induction k with
  | zero => intro v a; simp [Nat.mod_one]
  | succ k ih =>
    intro v a
    rw [List.range_succ, List.map_append, List.foldl_append]
    have hmap : (List.range k).map (fun i => Nat.digitChar ((v >>> (k + 1 - 1 - i)) &&& 1)) =
        (List.range k).map (fun i => Nat.digitChar (((v >>> 1) >>> (k - 1 - i)) &&& 1)) := by
      apply List.map_congr_left
      intro i hi
      have hilt : i < k := List.mem_range.mp hi
      have hsh : k + 1 - 1 - i = 1 + (k - 1 - i) := by omega
      rw [hsh, Nat.shiftRight_add]
    rw [hmap, ih (v >>> 1) a]
    simp only [List.map_cons, List.map_nil, List.foldl_cons, List.foldl_nil]
    have hd : (if Nat.digitChar ((v >>> (k + 1 - 1 - k)) &&& 1) = '1' then 1 else 0) =
        v % 2 := by
      have h0 : k + 1 - 1 - k = 0 := by omega
      rw [h0]
      simp only [Nat.shiftRight_zero, Nat.and_one_is_mod]
      rcases Nat.mod_two_eq_zero_or_one v with h2 | h2 <;> rw [h2] <;> rfl
    rw [hd, Nat.shiftRight_one]
    calc 2 * (a * 2 ^ k + v / 2 % 2 ^ k) + v % 2
        = a * (2 * 2 ^ k) + (v % 2 + 2 * (v / 2 % 2 ^ k)) := by ring
      _ = a * (2 * 2 ^ k) + v % (2 * 2 ^ k) := by rw [← Nat.mod_mul]
      _ = a * 2 ^ (k + 1) + v % 2 ^ (k + 1) := by rw [pow_succ, Nat.mul_comm (2 ^ k) 2]

/-- The fixed-width bit extraction emits only binary digits. -/
theorem binFixed_digits (k v : Nat) :
    ∀ c ∈ (List.range k).map (fun i => Nat.digitChar ((v >>> (k - 1 - i)) &&& 1)),
      c = '0' ∨ c = '1' := by
  intro c hc
  obtain ⟨i, hi, rfl⟩ := List.mem_map.mp hc
  rw [Nat.and_one_is_mod]
  rcases Nat.mod_two_eq_zero_or_one (v >>> (k - 1 - i)) with h | h <;> rw [h]
  · exact Or.inl rfl
  · exact Or.inr rfl

/-- The digit table inverts `hexCharVal` on digits below 16. -/
theorem hexCharVal_getD (d : Nat) (hd : d < 16) :
    hexCharVal (hex_digits.getD d '0') = d := by
  interval_cases d <;> rfl

theorem hex_digits_getD_mem (d : Nat) (hd : d < 16) :
    hex_digits.getD d '0' ∈ hex_digits := by
  interval_cases d <;> decide

theorem hex_digits_getD_ne_zero (d : Nat) (hd0 : 0 < d) (hd : d < 16) :
    hex_digits.getD d '0' ≠ '0' := by
  interval_cases d <;> decide

/-- Value of the repeated-division hexadecimal representation. -/
theorem hexNatAux_val (n : Nat) :
    ∀ a : Nat,
      (hexNatAux n).foldl (fun acc c => 16 * acc + hexCharVal c) a =
        a * 16 ^ (hexNatAux n).length + n := by
  induction n using Nat.strong_induction_on with
  | _ n ih =>
    intro a
    by_cases h : n = 0
    · subst h
      rw [hexNatAux]
      simp
    · rw [hexNatAux, dif_neg h]
      rw [List.foldl_append, List.length_append]
      rw [ih (n / 16) (by omega) a]
      simp only [List.foldl_cons, List.foldl_nil, List.length_cons, List.length_nil]
      rw [hexCharVal_getD (n % 16) (by omega)]
      have hnm : 16 * (n / 16) + n % 16 = n := by omega
      calc 16 * (a * 16 ^ (hexNatAux (n / 16)).length + n / 16) + n % 16
          = a * (16 ^ (hexNatAux (n / 16)).length * 16) + (16 * (n / 16) + n % 16) := by
            ring
        _ = a * 16 ^ ((hexNatAux (n / 16)).length + (0 + 1)) + n := by rw [hnm, pow_succ]

/-- The leading digit of a positive number's hexadecimal representation is not
zero. -/
theorem hexNatAux_head (n : Nat) (hn : n ≠ 0) :
    ∃ c t, hexNatAux n = c :: t ∧ c ≠ '0' := by
  induction n using Nat.strong_induction_on with
  | _ n ih =>
    rw [hexNatAux, dif_neg hn]
    by_cases h2 : n / 16 = 0
    · have h0 : hexNatAux 0 = [] := by
        rw [hexNatAux]
        rfl
      have h1 : n % 16 = n := by omega
      rw [h2, h0, h1]
      exact ⟨hex_digits.getD n '0', [], rfl,
        hex_digits_getD_ne_zero n (by omega) (by omega)⟩
    · obtain ⟨c, t, ht, hc⟩ := ih (n / 16) (by omega) h2
      rw [ht]
      exact ⟨c, t ++ [hex_digits.getD (n % 16) '0'], rfl, hc⟩

/-- Every digit emitted by the positive hexadecimal branch is a digit of the
table. -/
theorem hexNatAux_digits (n : Nat) : ∀ c ∈ hexNatAux n, c ∈ hex_digits := by
  induction n using Nat.strong_induction_on with
  | _ n ih =>
    intro c hc
    by_cases h : n = 0
    · subst h
      rw [hexNatAux] at hc
      simp at hc
    · rw [hexNatAux, dif_neg h] at hc
      rcases List.mem_append.mp hc with h1 | h1
      · exact ih (n / 16) (by omega) c h1
      · rw [List.mem_singleton.mp h1]
        exact hex_digits_getD_mem (n % 16) (by omega)

/-- The fixed-width hexadecimal loop renders `v mod 16 ^ k` in `k` digits. -/
theorem hexFixedAux_val (k : Nat) :
    ∀ (v a : Nat),
      (hexFixedAux k v).foldl (fun acc c => 16 * acc + hexCharVal c) a =
        a * 16 ^ k + v % 16 ^ k := by
  induction k with
  | zero => intro v a; simp [hexFixedAux, Nat.mod_one]
  | succ k ih =>
    intro v a
    rw [hexFixedAux, List.foldl_append, ih (v / 16) a]
    simp only [List.foldl_cons, List.foldl_nil]
    have hand : v &&& 15 = v % 16 := by
      have h : (15 : Nat) = 2 ^ 4 - 1 := by norm_num
      rw [h, Nat.and_pow_two_sub_one_eq_mod]
    rw [show (0xF : Nat) = 15 from rfl, hand, hexCharVal_getD (v % 16) (by omega)]
    calc 16 * (a * 16 ^ k + v / 16 % 16 ^ k) + v % 16
        = a * (16 * 16 ^ k) + (v % 16 + 16 * (v / 16 % 16 ^ k)) := by ring
      _ = a * (16 * 16 ^ k) + v % (16 * 16 ^ k) := by rw [← Nat.mod_mul]
      _ = a * 16 ^ (k + 1) + v % 16 ^ (k + 1) := by rw [pow_succ, Nat.mul_comm (16 ^ k) 16]

theorem hexFixedAux_length (k : Nat) : ∀ v : Nat, (hexFixedAux k v).length = k := by
  induction k with
  | zero => intro v; rfl
  | succ k ih =>
    intro v
    rw [hexFixedAux, List.length_append, ih (v / 16)]
    rfl

theorem hexFixedAux_digits (k : Nat) :
    ∀ v : Nat, ∀ c ∈ hexFixedAux k v, c ∈ hex_digits := by
  induction k with
  | zero => intro v c hc; simp [hexFixedAux] at hc
  | succ k ih =>
    intro v c hc
    rw [hexFixedAux] at hc
    rcases List.mem_append.mp hc with h1 | h1
    · exact ih (v / 16) c h1
    · rw [List.mem_singleton.mp h1]
      have hand : v &&& 15 = v % 16 := by
        have h : (15 : Nat) = 2 ^ 4 - 1 := by norm_num
        rw [h, Nat.and_pow_two_sub_one_eq_mod]
      rw [show (0xF : Nat) = 15 from rfl, hand]
      exact hex_digits_getD_mem (v % 16) (by omega)

theorem convert_to_binary_neg (num : ℤ) (h : num < 0) :
    convert_to_binary num =
      (List.range 10).map
        (fun i => Nat.digitChar (((num % 2 ^ 10).toNat >>> (10 - 1 - i)) &&& 1)) := by
  rw [convert_to_binary, if_pos h]

theorem convert_to_binary_pos (num : ℤ) (h : ¬ num < 0) (h2 : ¬ num = 0) :
    convert_to_binary num = binNatAux num.toNat := by
  rw [convert_to_binary, if_neg h, if_neg h2]

theorem convert_to_hexadecimal_neg (num : ℤ) (h : num < 0) :
    convert_to_hexadecimal num = hexFixedAux 8 (num % 2 ^ 32).toNat := by
  rw [convert_to_hexadecimal, if_pos h]

theorem convert_to_hexadecimal_pos (num : ℤ) (h : ¬ num < 0) (h2 : ¬ num = 0) :
    convert_to_hexadecimal num = hexNatAux num.toNat := by
  rw [convert_to_hexadecimal, if_neg h, if_neg h2]

/-- C2: for negative `n`, `convert_to_binary` emits exactly 10 binary digits
rendering `n mod 2^10` most-significant first (inputs below −512 are silently
truncated by the mask, never an error) and `convert_to_hexadecimal` emits
exactly 8 digits of the uppercase table rendering `n mod 2^32`; for `n ≥ 0`
both emit the minimal-width natural representation — the exact value with no
leading zero digit — and `"0"` for zero. -/
theorem convert_numbers_spec (num : ℤ) :
    (if num < 0 then
        (convert_to_binary num).length = 10 ∧
          (∀ c ∈ convert_to_binary num, c = '0' ∨ c = '1') ∧
          bitsVal (convert_to_binary num) = (num % 2 ^ 10).toNat
      else
        (∀ c ∈ convert_to_binary num, c = '0' ∨ c = '1') ∧
          bitsVal (convert_to_binary num) = num.toNat ∧
          (if num = 0 then convert_to_binary num = ['0']
            else ∀ t, convert_to_binary num ≠ '0' :: t)) ∧
      (if num < 0 then
        (convert_to_hexadecimal num).length = 8 ∧
          (∀ c ∈ convert_to_hexadecimal num, c ∈ hex_digits) ∧
          hexVal (convert_to_hexadecimal num) = (num % 2 ^ 32).toNat
      else
        (∀ c ∈ convert_to_hexadecimal num, c ∈ hex_digits) ∧
          hexVal (convert_to_hexadecimal num) = num.toNat ∧
          (if num = 0 then convert_to_hexadecimal num = ['0']
            else ∀ t, convert_to_hexadecimal num ≠ '0' :: t)) := by
  constructor
  · by_cases hneg : num < 0
    · rw [if_pos hneg, convert_to_binary_neg num hneg]
      have h1 : (0 : ℤ) ≤ num % 2 ^ 10 := Int.emod_nonneg num (by norm_num)
      have h2 : num % 2 ^ 10 < 2 ^ 10 := Int.emod_lt_of_pos num (by norm_num)
      have h3 : (num % 2 ^ 10).toNat < 2 ^ 10 := by omega
      refine ⟨by simp, binFixed_digits 10 _, ?_⟩
      have h5 := binFixed_val 10 (num % 2 ^ 10).toNat 0
      refine Eq.trans h5 ?_
      rw [Nat.zero_mul, Nat.zero_add]
      exact Nat.mod_eq_of_lt h3
    · rw [if_neg hneg]
      by_cases hz : num = 0
      · subst hz
        refine ⟨?_, ?_, ?_⟩ <;> simp [convert_to_binary, bitsVal]
      · rw [convert_to_binary_pos num hneg hz, if_neg hz]
        refine ⟨binNatAux_digits num.toNat, ?_, ?_⟩
        · have h5 := binNatAux_val num.toNat 0
          refine Eq.trans h5 ?_
          rw [Nat.zero_mul, Nat.zero_add]
        · obtain ⟨t, ht⟩ := binNatAux_head num.toNat (by omega)
          rw [ht]
          intro t2 hcontra
          exact absurd (List.head_eq_of_cons_eq hcontra) (by decide)
  · by_cases hneg : num < 0
    · rw [if_pos hneg, convert_to_hexadecimal_neg num hneg]
      have h1 : (0 : ℤ) ≤ num % 2 ^ 32 := Int.emod_nonneg num (by norm_num)
      have h2 : num % 2 ^ 32 < 2 ^ 32 := Int.emod_lt_of_pos num (by norm_num)
      have h3 : (num % 2 ^ 32).toNat < 2 ^ 32 := by omega
      refine ⟨hexFixedAux_length 8 _, hexFixedAux_digits 8 _, ?_⟩
      have h5 := hexFixedAux_val 8 (num % 2 ^ 32).toNat 0
      refine Eq.trans h5 ?_
      rw [Nat.zero_mul, Nat.zero_add]
      have h4 : (16 : Nat) ^ 8 = 2 ^ 32 := by norm_num
      rw [h4]
      exact Nat.mod_eq_of_lt h3
    · rw [if_neg hneg]
      by_cases hz : num = 0
      · subst hz
        refine ⟨?_, ?_, ?_⟩ <;> simp [convert_to_hexadecimal, hexVal, hexCharVal, hex_digits]
      · rw [convert_to_hexadecimal_pos num hneg hz, if_neg hz]
        refine ⟨hexNatAux_digits num.toNat, ?_, ?_⟩
        · have h5 := hexNatAux_val num.toNat 0
          refine Eq.trans h5 ?_
          rw [Nat.zero_mul, Nat.zero_add]
        · obtain ⟨c, t, ht, hc⟩ := hexNatAux_head num.toNat (by omega)
          rw [ht]
          intro t2 hcontra
          exact hc (List.head_eq_of_cons_eq hcontra)

/-! ### Word counting -/

/-- The per-character fold in terms of code points: ASCII capitals (65-90)
move to their lowercase counterparts (+32), everything else is unchanged.
The source's character comparisons are definitionally these bounds. -/
theorem foldChar_eq (c : Char) :
    foldChar c =
      if 65 ≤ c.toNat ∧ c.toNat ≤ 90 then Char.ofNat (c.toNat + 32) else c := by
  rw [foldChar]
  by_cases h : 65 ≤ c.toNat ∧ c.toNat ≤ 90
  · have hc : 'A' ≤ c ∧ c ≤ 'Z' := ⟨h.1, h.2⟩
    rw [if_pos h, if_pos hc]
  · have hc : ¬ ('A' ≤ c ∧ c ≤ 'Z') := fun h2 => h ⟨h2.1, h2.2⟩
    rw [if_neg h, if_neg hc]

/-- C8: `count_words` folds only ASCII capitals (A-Z, +32 to a-z) character by
character, leaves every other character unchanged, and tallies the folded
token: each table entry holds the number of input words folding to its key, so
`["The", "the", "THE"]` yields exactly the single entry `("the", 3)` while
`"Dog,"` and `"dog"` stay distinct entries. -/
theorem count_words_spec :
    (∀ c : Char, foldChar c =
        if 65 ≤ c.toNat ∧ c.toNat ≤ 90 then Char.ofNat (c.toNat + 32) else c) ∧
      (∀ (words : List String) (w : String),
        dictGet (count_words words) w 0 = (words.map foldWord).count w) ∧
      count_words ["The", "the", "THE"] = [("the", 3)] ∧
      count_words ["Dog,", "dog"] = [("dog,", 1), ("dog", 1)] := by
  refine ⟨foldChar_eq, ?_, by decide, by decide⟩
  intro words w
  have h1 : count_words words =
      (words.map foldWord).foldl
        (fun freq w2 => dictSet freq w2 (dictGet freq w2 0 + 1)) [] := by
    rw [count_words, List.foldl_map]
  rw [h1, dictGet_countFold]
  simp [dictGet]

/-! ### The tokenizer -/

/-- The `words` accumulator only ever receives appended tokens. -/
theorem tokenizeAux_acc (cs : List Char) :
    ∀ (cur : List Char) (ws : List (List Char)),
      tokenizeAux cs cur ws = ws ++ tokenizeAux cs cur [] := by
  induction cs with
  | nil =>
    intro cur ws
    by_cases h : cur = []
    · simp [tokenizeAux, h]
    · simp [tokenizeAux, h]
  | cons c cs ih =>
    intro cur ws
    simp only [tokenizeAux]
    by_cases hsp : c.isWhitespace
    · rw [if_pos hsp, if_pos hsp]
      by_cases h : cur = []
      · rw [if_pos h, if_pos h, ih [] ws]
      · rw [if_neg h, if_neg h, ih [] (ws ++ [cur]), ih [] ([] ++ [cur])]
        rw [List.nil_append, List.append_assoc]
    · rw [if_neg hsp, if_neg hsp, ih (cur ++ [c]) ws]

/-- Every token produced is non-empty and free of whitespace. -/
theorem tokenizeAux_wf (cs : List Char) :
    ∀ (cur : List Char) (ws : List (List Char)),
      (∀ w ∈ ws, w ≠ [] ∧ ∀ c ∈ w, c.isWhitespace = false) →
      (∀ c ∈ cur, c.isWhitespace = false) →
      ∀ w ∈ tokenizeAux cs cur ws, w ≠ [] ∧ ∀ c ∈ w, c.isWhitespace = false := by
  induction cs with
  | nil =>
    intro cur ws hws hcur w hw
    rw [tokenizeAux] at hw
    by_cases h : cur = []
    · rw [if_pos h] at hw
      exact hws w hw
    · rw [if_neg h] at hw
      rcases List.mem_append.mp hw with h1 | h1
      · exact hws w h1
      · rw [List.mem_singleton.mp h1]
        exact ⟨h, hcur⟩
  | cons c cs ih =>
    intro cur ws hws hcur w hw
    rw [tokenizeAux] at hw
    by_cases hsp : c.isWhitespace
    · rw [if_pos hsp] at hw
      by_cases h : cur = []
      · rw [if_pos h] at hw
        exact ih [] ws hws (by simp) w hw
      · rw [if_neg h] at hw
        refine ih [] (ws ++ [cur]) ?_ (by simp) w hw
        intro u hu
        rcases List.mem_append.mp hu with h1 | h1
        · exact hws u h1
        · rw [List.mem_singleton.mp h1]
          exact ⟨h, hcur⟩
    · rw [if_neg hsp] at hw
      refine ih (cur ++ [c]) ws hws ?_ w hw
      intro c2 hc2
      rcases List.mem_append.mp hc2 with h1 | h1
      · exact hcur c2 h1
      · rw [List.mem_singleton.mp h1]
        simp only [Bool.not_eq_true] at hsp
        exact hsp

/-- Scanning a whitespace-free prefix just extends the current word. -/
theorem tokenizeAux_word (w : List Char) (hw : ∀ c ∈ w, c.isWhitespace = false) :
    ∀ (cs cur : List Char) (ws : List (List Char)),
      tokenizeAux (w ++ cs) cur ws = tokenizeAux cs (cur ++ w) ws := by
  induction w with
  | nil =>
    intro cs cur ws
    rw [List.nil_append, List.append_nil]
  | cons c w2 ih =>
    intro cs cur ws
    have hc : c.isWhitespace = false := hw c (List.mem_cons_self _ _)
    rw [List.cons_append, tokenizeAux, if_neg (by rw [hc]; exact Bool.false_ne_true)]
    rw [ih (fun c2 h2 => hw c2 (List.mem_cons_of_mem _ h2)) cs (cur ++ [c]) ws]
    rw [List.append_assoc]
    rfl

/-- Tokenizing the single-space join of well-formed tokens recovers them. -/
theorem tokenize_join (ts : List (List Char))
    (h : ∀ w ∈ ts, w ≠ [] ∧ ∀ c ∈ w, c.isWhitespace = false) :
    tokenize (joinTokens ts) = ts := by
  induction ts with
  | nil => rfl
  | cons w ws ih =>
    obtain ⟨hwne, hwns⟩ := h w (List.mem_cons_self _ _)
    have hrest : ∀ u ∈ ws, u ≠ [] ∧ ∀ c ∈ u, c.isWhitespace = false :=
      fun u hu => h u (List.mem_cons_of_mem _ hu)
    cases ws with
    | nil =>
      show tokenize (joinTokens [w]) = [w]
      have hj : joinTokens [w] = w := by rw [joinTokens]
      rw [hj, tokenize]
      have h1 := tokenizeAux_word w hwns [] [] []
      rw [List.append_nil, List.nil_append] at h1
      rw [h1, tokenizeAux, if_neg hwne]
      rfl
    | cons v ws2 =>
      show tokenize (joinTokens (w :: v :: ws2)) = w :: v :: ws2
      have hj : joinTokens (w :: v :: ws2) = w ++ ' ' :: joinTokens (v :: ws2) := by
        rw [joinTokens]
        exact fun h2 => List.noConfusion h2
      rw [hj, tokenize]
      rw [tokenizeAux_word w hwns (' ' :: joinTokens (v :: ws2)) [] []]
      rw [List.nil_append, tokenizeAux,
        if_pos (by decide : (' ' : Char).isWhitespace = true), if_neg hwne]
      rw [tokenizeAux_acc (joinTokens (v :: ws2)) [] ([] ++ [w]), List.nil_append]
      show [w] ++ tokenize (joinTokens (v :: ws2)) = w :: v :: ws2
      rw [ih hrest]
      rfl

/-- C9: for every line, joining the produced tokens with single spaces and
re-tokenizing reproduces exactly the same token sequence; tokens are never
empty and never contain whitespace. -/
theorem tokenize_roundtrip (line : List Char) :
    tokenize (joinTokens (tokenize line)) = tokenize line ∧
      ∀ w ∈ tokenize line, w ≠ [] ∧ ∀ c ∈ w, c.isWhitespace = false := by
  have hwf : ∀ w ∈ tokenize line, w ≠ [] ∧ ∀ c ∈ w, c.isWhitespace = false :=
    tokenizeAux_wf line [] [] (by simp) (by simp)
  exact ⟨tokenize_join (tokenize line) hwf, hwf⟩
